import Mathlib

/-!
Shallow embedding of `data/download_attention.py` (Figshare attention-fMRI
downloader).  Pure string logic (subject-code tables, the
`sub[-_]?0?([1-9]\d?)` regex search, filename heuristics, subject selection)
is translated function by function; the effectful `main` is modelled as a
pure function over an explicit destination-directory state (an association
list of file name to file data), parameterised by a `World` supplying the
remote's contents (`fetch`, per URL) and the md5 hash function.  Python
case-mapping and whitespace stripping are modelled for ASCII, which covers
every string the script manipulates.
-/

namespace DownloadAttention

/-! ## ASCII string helpers (Python `.lower()`, `.upper()`, `.strip()`) -/

def toLowerL (cs : List Char) : List Char := cs.map Char.toLower

def toUpperL (cs : List Char) : List Char := cs.map Char.toUpper

def pyUpper (s : String) : String := ⟨toUpperL s.data⟩

/-- ASCII whitespace stripped by Python `str.strip()`. -/
def isPySpace (c : Char) : Bool :=
  c = ' ' || c = '\t' || c = '\n' || c = '\r' || c = '\x0b' || c = '\x0c'

def pyStrip (cs : List Char) : List Char :=
  ((cs.dropWhile isPySpace).reverse.dropWhile isPySpace).reverse

def isPrefixL : List Char → List Char → Bool
  | [], _ => true
  | _ :: _, [] => false
  | c :: cs, d :: ds => c = d && isPrefixL cs ds

/-- Python `hay.endswith(sfx)`. -/
def endsWithL (cs sfx : List Char) : Bool :=
  isPrefixL sfx.reverse cs.reverse

/-- Python `needle in hay` (substring containment). -/
def containsSub (hay needle : List Char) : Bool :=
  match hay with
  | [] => needle.isEmpty
  | _ :: rest => isPrefixL needle hay || containsSub rest needle

/-! ## The regex `sub[-_]?0?([1-9]\d?)` of `_normalize_sub_code`,
with Python `re.search` semantics: leftmost match position, greedy
optional elements with backtracking. -/

def digitVal (c : Char) : Nat := c.toNat - 48

/-- Match `([1-9]\d?)` at the head, returning the captured number. -/
def matchNum : List Char → Option Nat
  | [] => none
  | c :: rest =>
    if '1' ≤ c && c ≤ '9' then
      match rest with
      | d :: _ => if '0' ≤ d && d ≤ '9'
          then some (digitVal c * 10 + digitVal d)
          else some (digitVal c)
      | [] => some (digitVal c)
    else none

/-- Match `0?([1-9]\d?)` at the head (greedy `0?`, with backtracking). -/
def matchAfterZero (cs : List Char) : Option Nat :=
  match cs with
  | '0' :: rest => (matchNum rest).orElse (fun _ => matchNum cs)
  | _ => matchNum cs

/-- Match `[-_]?0?([1-9]\d?)` at the head (greedy `[-_]?`, with backtracking). -/
def matchAfterSep (cs : List Char) : Option Nat :=
  match cs with
  | c :: rest =>
    if c = '-' || c = '_'
      then (matchAfterZero rest).orElse (fun _ => matchAfterZero cs)
      else matchAfterZero cs
  | [] => matchAfterZero cs

/-- Match the whole pattern anchored at the head. -/
def matchSubAt (cs : List Char) : Option Nat :=
  match cs with
  | 's' :: 'u' :: 'b' :: rest => matchAfterSep rest
  | _ => none

/-- `re.search`: try each start position left to right. -/
def searchSub : List Char → Option Nat
  | [] => none
  | c :: rest => (matchSubAt (c :: rest)).orElse (fun _ => searchSub rest)

/-! ## Subject-code tables and selection -/

def S_TO_SUB : List (String × String) :=
  [("S1", "sub-06"), ("S2", "sub-07"), ("S3", "sub-04"), ("S4", "sub-01")]

def SUB_TO_S : List (String × String) := S_TO_SUB.map (fun p => (p.2, p.1))

def lookupAssoc : List (String × String) → String → Option String
  | [], _ => none
  | (k, v) :: rest, key => if k = key then some v else lookupAssoc rest key

def lookupD (l : List (String × String)) (k dflt : String) : String :=
  match lookupAssoc l k with
  | some v => v
  | none => dflt

/-- Python f-string `f"sub-\x7bn:02d\x7d"` for the values the regex can produce. -/
def fmtSub (n : Nat) : String :=
  "sub-" ++ (if n < 10 then "0" else "") ++ toString n

def _normalize_sub_code (s : String) : Option String :=
  match searchSub (toLowerL (pyStrip s.data)) with
  | some n => if n = 1 || n = 4 || n = 6 || n = 7 then some (fmtSub n) else none
  | none => none

/-- One iteration of the `select_subjects` loop: short-code table first,
then `_normalize_sub_code`. -/
def resolveSpec (s : String) : Option String :=
  match lookupAssoc S_TO_SUB (pyUpper s) with
  | some sub => some sub
  | none => _normalize_sub_code s

/-- The `select_subjects` loop body over all specs: first unresolvable
spec raises `ValueError(f"Unrecognized subject: ...")`. -/
def collectSubs : List String → Except String (List String)
  | [] => .ok []
  | s :: rest =>
    match resolveSpec s with
    | some sub => Except.map (fun l => sub :: l) (collectSubs rest)
    | none => .error ("Unrecognized subject: " ++ s)

/-- Python string `<`: lexicographic on code points. -/
def lexLt : List Char → List Char → Bool
  | [], [] => false
  | [], _ :: _ => true
  | _ :: _, [] => false
  | c :: cs, d :: ds =>
    if c.toNat < d.toNat then true
    else if d.toNat < c.toNat then false
    else lexLt cs ds

/-- Python string `<=`. -/
def strLeB (a b : String) : Bool := !(lexLt b.data a.data)

def orderedInsertStr (a : String) : List String → List String
  | [] => [a]
  | b :: l => if strLeB a b then a :: b :: l else b :: orderedInsertStr a l

def insertionSortStr : List String → List String
  | [] => []
  | a :: l => orderedInsertStr a (insertionSortStr l)

/-- `sorted l` as a predicate: nondecreasing in Python string order. -/
def strSorted (l : List String) : Prop :=
  List.Pairwise (fun a b => strLeB a b = true) l

instance (l : List String) : Decidable (strSorted l) :=
  inferInstanceAs (Decidable (List.Pairwise (fun a b => strLeB a b = true) l))

/-- Python `sorted(set l)`: duplicates collapsed, then sorted ascending
in code-point lexicographic order, as Python compares strings. -/
def pySortedSet (l : List String) : List String :=
  insertionSortStr l.dedup

def select_subjects (specs : List String) : Except String (List String) :=
  if specs.isEmpty then .ok (SUB_TO_S.map Prod.fst)
  else Except.map pySortedSet (collectSubs specs)

/-! ## Catalog entries and the selection stage of `main` -/

def looks_like_attention_fmri (name : String) : Bool :=
  endsWithL (toLowerL name.data) ".h5".data
    && containsSub (toLowerL name.data) "attention".data
    && containsSub (toLowerL name.data) "vc".data

/-- A Figshare catalog entry as `main` reads it: `name` defaults to `""`
(`fi.get("name","")`), the three URL fields and `md5` may be absent. -/
structure CatalogEntry where
  name : String
  download_url : Option String
  url : Option String
  supplied_url : Option String
  md5 : Option String
deriving DecidableEq

/-- Python `a or b` over `.get` results: `None` and `""` are falsy. -/
def pyOrStr (a b : Option String) : Option String :=
  match a with
  | some s => if s = "" then b else some s
  | none => b

/-- `fi.get("download_url") or fi.get("url") or fi.get("supplied_url")`. -/
def entryUrl (fi : CatalogEntry) : Option String :=
  pyOrStr fi.download_url (pyOrStr fi.url fi.supplied_url)

def truthyStr (o : Option String) : Bool :=
  match o with
  | some s => !(s == "")
  | none => false

/-- A catalog entry annotated with `__sub` and `__S`. -/
structure ChosenEntry where
  fi : CatalogEntry
  sub : String
  S : String
deriving DecidableEq

/-- One iteration of the `for fi in files` selection loop of `main`:
skip on falsy name or url, filename heuristic, subject pinning,
annotation with `__sub` and `__S`. -/
def selectEntry (wanted : List String) (fi : CatalogEntry) : Option ChosenEntry :=
  if fi.name = "" then none
  else if truthyStr (entryUrl fi) = false then none
  else if looks_like_attention_fmri fi.name = false then none
  else
    match _normalize_sub_code fi.name with
    | some sub =>
      if sub ∈ wanted then some ⟨fi, sub, lookupD SUB_TO_S sub "Sx"⟩ else none
    | none => none

/-- The `for fi in files` selection loop of `main`. -/
def selectChosen (wanted : List String) (files : List CatalogEntry) :
    List ChosenEntry :=
  files.filterMap (selectEntry wanted)

/-! ## Destination-directory model and the effectful part of `main`

The destination directory is an association list of file name to file data
(immediate children only; `main` only ever touches immediate children).
`main` is modelled from the point where the destination directory exists
(`dest_root.mkdir` has run) and the catalog has been fetched: the catalog,
the subject specs from the config, the article id, and the initial
directory state are parameters, and a `World` supplies what the network
and the hash function would return. -/

/-- One record of the manifest's `downloaded` list. -/
structure ManifestRecord where
  api_name : String
  saved_as : String
  subject_S : String
  download_url : String
  md5_remote : Option String
  md5_local : Option String
deriving DecidableEq

/-- The manifest written as `attention_manifest.json`.  The constant
`S_to_sub`/`sub_to_S` tables and the resolved `dest_root` path are not
repeated here. -/
structure Manifest where
  figshare_article_id : Nat
  downloaded : List ManifestRecord
  pruned : List String
deriving DecidableEq

inductive FileData where
  | blob : String → FileData
  | manifestFile : Manifest → FileData
deriving DecidableEq

/-- Immediate children of the destination directory. -/
abbrev Dir := List (String × FileData)

def dirLookup : Dir → String → Option FileData
  | [], _ => none
  | (m, d) :: rest, n => if m = n then some d else dirLookup rest n

/-- Write a file: overwrite the entry if the name exists, else append. -/
def dirWrite : Dir → String → FileData → Dir
  | [], n, d => [(n, d)]
  | (m, e) :: rest, n, d =>
    if m = n then (n, d) :: rest else (m, e) :: dirWrite rest n d

/-- What the environment supplies: the body served for a URL, and the md5
hash of a file's contents. -/
structure World where
  fetch : String → String
  md5 : FileData → String

def savedName (ce : ChosenEntry) : String := ce.S ++ "_attention.h5"

/-- One iteration of the download loop of `main` for a chosen entry:
`fi["download_url"]` (KeyError when absent), existence-checked download,
md5 computation (a mismatch only prints), manifest record.  Returns the
new directory, the record, and whether a fetch happened. -/
def processEntry (w : World) (dir : Dir) (ce : ChosenEntry) :
    Except String (Dir × ManifestRecord × Bool) :=
  match ce.fi.download_url with
  | none => .error "KeyError: download_url"
  | some url =>
    match dirLookup dir (savedName ce) with
    | some c =>
      .ok (dir, ⟨ce.fi.name, savedName ce, ce.S, url, ce.fi.md5, some (w.md5 c)⟩,
        false)
    | none =>
      .ok (dirWrite dir (savedName ce) (FileData.blob (w.fetch url)),
        ⟨ce.fi.name, savedName ce, ce.S, url, ce.fi.md5,
          some (w.md5 (FileData.blob (w.fetch url)))⟩,
        true)

/-- The whole download loop.  An error carries the directory state at the
moment the exception propagates. -/
def processAll (w : World) :
    Dir → List ChosenEntry →
      Except (String × Dir) (Dir × List ManifestRecord × List Bool)
  | dir, [] => .ok (dir, [], [])
  | dir, ce :: rest =>
    match processEntry w dir ce with
    | .error e => .error (e, dir)
    | .ok (dir1, r, b) =>
      match processAll w dir1 rest with
      | .error p => .error p
      | .ok (dirF, rs, bs) => .ok (dirF, r :: rs, b :: bs)

/-- `\x7bf"\x7bS\x7d_attention.h5" for S in S_TO_SUB\x7d ∪ \x7b"attention_manifest.json"\x7d`. -/
def allowedNames : List String :=
  (S_TO_SUB.map (fun p => p.1 ++ "_attention.h5")) ++ ["attention_manifest.json"]

/-- The pruning loop: every immediate child outside the allowed set is
removed and its name recorded.  Removal failures (silently skipped in the
script) are environment faults and are not modelled: removal succeeds. -/
def prune (dir : Dir) : Dir × List String :=
  (dir.filter (fun p => decide (p.1 ∈ allowedNames)),
   (dir.filter (fun p => decide (p.1 ∉ allowedNames))).map Prod.fst)

/-- Outcome of a run of `main` from the subject-selection step on:
a propagated exception (with the directory state at that point), the
early `return` when nothing matched, or completion with the final
directory, the manifest, and the per-entry fetched flags. -/
inductive RunOutcome where
  | fatal : String → Dir → RunOutcome
  | noMatch : Dir → RunOutcome
  | completed : Dir → Manifest → List Bool → RunOutcome
deriving DecidableEq

/-- `main` after config resolution, `dest_root.mkdir` and the catalog
fetch: subject validation, selection, download loop, pruning, manifest. -/
def runMain (w : World) (articleId : Nat) (subjects : List String)
    (files : List CatalogEntry) (dir0 : Dir) : RunOutcome :=
  match select_subjects subjects with
  | .error e => .fatal e dir0
  | .ok wanted =>
    let chosen := selectChosen wanted files
    if chosen.isEmpty then .noMatch dir0
    else
      match processAll w dir0 chosen with
      | .error p => .fatal p.1 p.2
      | .ok (dir1, records, flags) =>
        let pr := prune dir1
        let m : Manifest := ⟨articleId, records, pr.2⟩
        .completed (dirWrite pr.1 "attention_manifest.json" (FileData.manifestFile m))
          m flags

/-! ## Claim-side definitions and concrete inputs used by witnesses -/

def fourSubCodes : List String := ["sub-01", "sub-04", "sub-06", "sub-07"]

/-- The spec's characterization of which catalog entries the selector keeps:
name matches the heuristic and the derived subject code is wanted. -/
def specKeeps (wanted : List String) (fi : CatalogEntry) : Bool :=
  looks_like_attention_fmri fi.name &&
    (match _normalize_sub_code fi.name with
     | some sub => decide (sub ∈ wanted)
     | none => false)

/-- A concrete environment: the body served for a URL is a function of the
URL, and the hash is injective on the data used in witnesses. -/
def wS : World :=
  ⟨fun u => "body:" ++ u,
   fun d => match d with
     | .blob s => "md5:" ++ s
     | .manifestFile _ => "md5:manifest"⟩

def entrySub01 : CatalogEntry :=
  ⟨"sub-01_attention_vc.h5", some "u1", none, none, some "remotehash"⟩

def entrySub99 : CatalogEntry :=
  ⟨"sub-99_other.h5", some "u2", none, none, none⟩

/-- An entry whose URL appears only in the `url` field. -/
def entryUrlOnly : CatalogEntry :=
  ⟨"sub-01_attention_vc.h5", none, some "https-mirror", none, none⟩

/-- A second catalog entry deriving the same subject as `entrySub01`. -/
def entrySub01b : CatalogEntry :=
  ⟨"sub-01_attention_vc_take2.h5", some "u3", none, none, none⟩

def chosenS4 : ChosenEntry := ⟨entrySub01, "sub-01", "S4"⟩

/-- What `select_subjects []` returns: all four codes, in table order. -/
def defaultWanted : List String := ["sub-06", "sub-07", "sub-04", "sub-01"]

def recC1 : ManifestRecord :=
  ⟨"sub-01_attention_vc.h5", "S4_attention.h5", "S4", "u1",
   some "remotehash", some "md5:body:u1"⟩

def manifestC1 : Manifest := ⟨13474629, [recC1], ["junk.txt"]⟩

def dirFC1 : Dir :=
  [("S4_attention.h5", FileData.blob "body:u1"),
   ("attention_manifest.json", FileData.manifestFile manifestC1)]

/-! ## Lemmas about subject selection -/

theorem lookupAssoc_mem {l : List (String × String)} {k v : String}
    (h : lookupAssoc l k = some v) : (k, v) ∈ l := by
  induction l with
  | nil => cases h
  | cons p rest ih =>
    obtain ⟨m, e⟩ := p
    by_cases hm : m = k
    · subst hm
      simp [lookupAssoc] at h
      simp [h]
    · simp [lookupAssoc, hm] at h
      exact List.mem_cons_of_mem _ (ih h)

theorem normalize_mem_four {s x : String} (h : _normalize_sub_code s = some x) :
    x ∈ fourSubCodes := by
  cases hn : searchSub (toLowerL (pyStrip s.data)) with
  | none => simp [_normalize_sub_code, hn] at h
  | some n =>
    simp only [_normalize_sub_code, hn] at h
    split at h
    case isTrue hc =>
      simp only [Option.some.injEq] at h
      subst h
      simp only [Bool.or_eq_true, decide_eq_true_eq] at hc
      rcases hc with ((h | h) | h) | h <;> subst h <;> decide
    case isFalse => cases h

theorem resolveSpec_mem_four {s x : String} (h : resolveSpec s = some x) :
    x ∈ fourSubCodes := by
  unfold resolveSpec at h
  cases hl : lookupAssoc S_TO_SUB (pyUpper s) with
  | some v =>
    rw [hl] at h
    simp only [Option.some.injEq] at h
    subst h
    have hm := lookupAssoc_mem hl
    simp only [S_TO_SUB, List.mem_cons, List.mem_singleton, Prod.mk.injEq,
      List.not_mem_nil, or_false] at hm
    rcases hm with ⟨_, h⟩ | ⟨_, h⟩ | ⟨_, h⟩ | ⟨_, h⟩ <;> subst h <;> decide
  | none =>
    rw [hl] at h
    exact normalize_mem_four h

theorem collectSubs_mem {specs : List String} {subs : List String}
    (h : collectSubs specs = .ok subs) :
    ∀ x ∈ subs, ∃ s ∈ specs, resolveSpec s = some x := by
  induction specs generalizing subs with
  | nil =>
    simp only [collectSubs, Except.ok.injEq] at h
    subst h
    intro x hx
    cases hx
  | cons s rest ih =>
    intro x hx
    cases hr : resolveSpec s with
    | none => simp [collectSubs, hr] at h
    | some sub =>
      simp only [collectSubs, hr] at h
      cases hrest : collectSubs rest with
      | error e => rw [hrest] at h; cases h
      | ok l =>
        rw [hrest] at h
        simp only [Except.map, Except.ok.injEq] at h
        subst h
        rcases List.mem_cons.mp hx with hx | hx
        · exact ⟨s, by simp, hx ▸ hr⟩
        · obtain ⟨t, ht, hres⟩ := ih hrest x hx
          exact ⟨t, by simp [ht], hres⟩

theorem collectSubs_error_first {specs : List String}
    (h : ∃ s ∈ specs, resolveSpec s = none) :
    ∃ bad, bad ∈ specs ∧ resolveSpec bad = none ∧
      collectSubs specs = .error ("Unrecognized subject: " ++ bad) := by
  induction specs with
  | nil =>
    obtain ⟨s, hs, _⟩ := h
    cases hs
  | cons s rest ih =>
    cases hr : resolveSpec s with
    | none =>
      exact ⟨s, by simp, hr, by simp [collectSubs, hr]⟩
    | some sub =>
      have hrest : ∃ t ∈ rest, resolveSpec t = none := by
        obtain ⟨t, ht, hres⟩ := h
        rcases List.mem_cons.mp ht with ht | ht
        · subst ht
          rw [hr] at hres
          cases hres
        · exact ⟨t, ht, hres⟩
      obtain ⟨bad, hbad, hbadres, hcoll⟩ := ih hrest
      exact ⟨bad, by simp [hbad], hbadres, by simp [collectSubs, hr, hcoll, Except.map]⟩

theorem lexLt_asymm : ∀ {a b : List Char},
    lexLt a b = true → lexLt b a = false := by
  intro a
  induction a with
  | nil =>
    intro b h
    cases b with
    | nil => simp [lexLt] at h
    | cons d ds => simp [lexLt]
  | cons c cs ih =>
    intro b h
    cases b with
    | nil => simp [lexLt] at h
    | cons d ds =>
      simp only [lexLt] at h ⊢
      by_cases h1 : c.toNat < d.toNat
      · have h2 : ¬ d.toNat < c.toNat := Nat.lt_asymm h1
        simp [h1, h2]
      · by_cases h2 : d.toNat < c.toNat
        · simp [h1, h2] at h
        · simp only [h1, h2, if_false] at h ⊢
          exact ih h

theorem strLeB_total (a b : String) : strLeB a b = true ∨ strLeB b a = true := by
  unfold strLeB
  cases h : lexLt a.data b.data with
  | false => right; simp [h]
  | true => left; simp [lexLt_asymm h]

theorem lexLt_trans : ∀ {a b c : List Char},
    lexLt a b = true → lexLt b c = true → lexLt a c = true := by
  intro a
  induction a with
  | nil =>
    intro b c h1 h2
    cases c with
    | nil => cases b <;> simp [lexLt] at h2
    | cons z zs => simp [lexLt]
  | cons x xs ih =>
    intro b c h1 h2
    cases b with
    | nil => simp [lexLt] at h1
    | cons y ys =>
      cases c with
      | nil => simp [lexLt] at h2
      | cons z zs =>
        simp only [lexLt] at h1 h2 ⊢
        by_cases hxy : x.toNat < y.toNat
        · by_cases hyz : y.toNat < z.toNat
          · simp [Nat.lt_trans hxy hyz]
          · by_cases hzy : z.toNat < y.toNat
            · simp [hyz, hzy] at h2
            · have hyz2 : y.toNat = z.toNat :=
                Nat.le_antisymm (Nat.le_of_not_lt hzy) (Nat.le_of_not_lt hyz)
              simp [hyz2 ▸ hxy]
        · by_cases hyx : y.toNat < x.toNat
          · simp [hxy, hyx] at h1
          · have hxy2 : x.toNat = y.toNat :=
              Nat.le_antisymm (Nat.le_of_not_lt hyx) (Nat.le_of_not_lt hxy)
            simp only [hxy, hyx, if_false] at h1
            by_cases hyz : y.toNat < z.toNat
            · simp [hxy2 ▸ hyz]
            · by_cases hzy : z.toNat < y.toNat
              · simp [hyz, hzy] at h2
              · have hyz2 : y.toNat = z.toNat :=
                  Nat.le_antisymm (Nat.le_of_not_lt hzy) (Nat.le_of_not_lt hyz)
                simp only [hyz, hzy, if_false] at h2
                have hxz : ¬ x.toNat < z.toNat := by
                  rw [hxy2, hyz2]
                  exact Nat.lt_irrefl _
                have hzx : ¬ z.toNat < x.toNat := by
                  rw [hxy2, hyz2]
                  exact Nat.lt_irrefl _
                simp only [hxz, hzx, if_false]
                exact ih h1 h2

theorem lexLt_connex : ∀ {a b : List Char},
    lexLt a b = false → lexLt b a = false → a = b := by
  intro a
  induction a with
  | nil =>
    intro b h1 _
    cases b with
    | nil => rfl
    | cons y ys => simp [lexLt] at h1
  | cons x xs ih =>
    intro b h1 h2
    cases b with
    | nil => simp [lexLt] at h2
    | cons y ys =>
      simp only [lexLt] at h1 h2
      by_cases hxy : x.toNat < y.toNat
      · simp [hxy] at h1
      · by_cases hyx : y.toNat < x.toNat
        · simp [hyx] at h2
        · simp only [hxy, hyx, if_false] at h1 h2
          have hxy2 : x.toNat = y.toNat :=
            Nat.le_antisymm (Nat.le_of_not_lt hyx) (Nat.le_of_not_lt hxy)
          have hc : x = y := Char.ext (UInt32.ext hxy2)
          subst hc
          rw [ih h1 h2]

theorem strLeB_trans {a b c : String} (h1 : strLeB a b = true)
    (h2 : strLeB b c = true) : strLeB a c = true := by
  unfold strLeB at h1 h2 ⊢
  simp only [Bool.not_eq_true'] at h1 h2 ⊢
  cases hca : lexLt c.data a.data with
  | false => rfl
  | true =>
    cases hbc : lexLt b.data c.data with
    | true =>
      have := lexLt_trans hbc hca
      rw [this] at h1
      cases h1
    | false =>
      have heq : b.data = c.data := lexLt_connex hbc h2
      rw [← heq] at hca
      rw [hca] at h1
      cases h1

theorem mem_orderedInsertStr {a x : String} : ∀ {l : List String},
    x ∈ orderedInsertStr a l → x = a ∨ x ∈ l := by
  intro l
  induction l with
  | nil =>
    intro h
    simp [orderedInsertStr] at h
    simp [h]
  | cons b l ih =>
    intro h
    by_cases hle : strLeB a b = true
    · simp only [orderedInsertStr, hle, if_true] at h
      rcases List.mem_cons.mp h with h | h
      · exact Or.inl h
      · exact Or.inr h
    · simp only [orderedInsertStr, hle, if_false] at h
      rcases List.mem_cons.mp h with h | h
      · exact Or.inr (by simp [h])
      · rcases ih h with h | h
        · exact Or.inl h
        · exact Or.inr (by simp [h])

theorem orderedInsertStr_perm (a : String) : ∀ (l : List String),
    (orderedInsertStr a l).Perm (a :: l) := by
  intro l
  induction l with
  | nil => simp [orderedInsertStr]
  | cons b l ih =>
    by_cases hle : strLeB a b = true
    · simp [orderedInsertStr, hle]
    · simp only [orderedInsertStr, hle, if_false]
      exact (ih.cons b).trans (List.Perm.swap a b l)

theorem insertionSortStr_perm : ∀ (l : List String),
    (insertionSortStr l).Perm l := by
  intro l
  induction l with
  | nil => simp [insertionSortStr]
  | cons a l ih =>
    exact (orderedInsertStr_perm a (insertionSortStr l)).trans (ih.cons a)

theorem sorted_orderedInsertStr {a : String} : ∀ {l : List String},
    strSorted l → strSorted (orderedInsertStr a l) := by
  intro l
  induction l with
  | nil =>
    intro _
    simp [orderedInsertStr, strSorted]
  | cons b l ih =>
    intro hs
    obtain ⟨hb, hl⟩ := List.pairwise_cons.mp hs
    by_cases hle : strLeB a b = true
    · simp only [orderedInsertStr, hle, if_true, strSorted]
      refine List.pairwise_cons.mpr ⟨?_, hs⟩
      intro x hx
      rcases List.mem_cons.mp hx with h | h
      · exact h ▸ hle
      · exact strLeB_trans hle (hb x h)
    · simp only [orderedInsertStr, hle, if_false, strSorted]
      refine List.pairwise_cons.mpr ⟨?_, ih hl⟩
      intro x hx
      rcases mem_orderedInsertStr hx with h | h
      · subst h
        rcases strLeB_total x b with h | h
        · exact absurd h hle
        · exact h
      · exact hb x h

theorem sorted_insertionSortStr : ∀ (l : List String),
    strSorted (insertionSortStr l) := by
  intro l
  induction l with
  | nil => exact List.Pairwise.nil
  | cons a l ih => exact sorted_orderedInsertStr ih

theorem pySortedSet_nodup (l : List String) : (pySortedSet l).Nodup :=
  (insertionSortStr_perm l.dedup).nodup_iff.mpr (List.nodup_dedup l)

theorem pySortedSet_sorted (l : List String) : strSorted (pySortedSet l) :=
  sorted_insertionSortStr l.dedup

theorem select_subjects_nodup {specs l : List String}
    (h : select_subjects specs = .ok l) : l.Nodup := by
  unfold select_subjects at h
  by_cases he : specs.isEmpty
  · rw [if_pos he] at h
    simp only [Except.ok.injEq] at h
    subst h
    decide
  · rw [if_neg he] at h
    cases hc : collectSubs specs with
    | error e => simp [hc, Except.map] at h
    | ok subs =>
      rw [hc] at h
      simp only [Except.map, Except.ok.injEq] at h
      subst h
      exact pySortedSet_nodup subs

theorem select_subjects_sorted {specs l : List String} (hne : specs ≠ [])
    (h : select_subjects specs = .ok l) : strSorted l := by
  unfold select_subjects at h
  rw [if_neg (by simpa using hne)] at h
  cases hc : collectSubs specs with
  | error e => simp [hc, Except.map] at h
  | ok subs =>
    rw [hc] at h
    simp only [Except.map, Except.ok.injEq] at h
    subst h
    exact pySortedSet_sorted subs

theorem select_subjects_mem_four {specs l : List String}
    (h : select_subjects specs = .ok l) : ∀ x ∈ l, x ∈ fourSubCodes := by
  unfold select_subjects at h
  by_cases he : specs.isEmpty
  · rw [if_pos he] at h
    simp only [Except.ok.injEq] at h
    subst h
    decide
  · rw [if_neg he] at h
    cases hc : collectSubs specs with
    | error e => simp [hc, Except.map] at h
    | ok subs =>
      rw [hc] at h
      simp only [Except.map, Except.ok.injEq] at h
      subst h
      intro x hx
      have hx2 : x ∈ subs.dedup :=
        ((insertionSortStr_perm subs.dedup).mem_iff (a := x)).mp hx
      obtain ⟨s, hs, hres⟩ := collectSubs_mem hc x (List.mem_dedup.mp hx2)
      exact resolveSpec_mem_four hres

/-! ## Lemmas about the selection stage -/

theorem selectEntry_some {wanted : List String} {fi : CatalogEntry}
    {ce : ChosenEntry} (h : selectEntry wanted fi = some ce) :
    ce.fi = fi ∧ looks_like_attention_fmri fi.name = true ∧
    _normalize_sub_code fi.name = some ce.sub ∧ ce.sub ∈ wanted ∧
    ce.S = lookupD SUB_TO_S ce.sub "Sx" := by
  unfold selectEntry at h
  split at h
  case isTrue => cases h
  case isFalse h1 =>
    split at h
    case isTrue => cases h
    case isFalse h2 =>
      split at h
      case isTrue => cases h
      case isFalse h3 =>
        have hlf : looks_like_attention_fmri fi.name = true := by
          revert h3
          cases looks_like_attention_fmri fi.name <;> simp
        cases hn : _normalize_sub_code fi.name with
        | none =>
          simp only [hn] at h
          exact Option.noConfusion h
        | some sub =>
          simp only [hn] at h
          split at h
          case isTrue hw =>
            simp only [Option.some.injEq] at h
            subst h
            exact ⟨rfl, hlf, rfl, hw, rfl⟩
          case isFalse => cases h

theorem selectChosen_mem {wanted : List String} {files : List CatalogEntry}
    {ce : ChosenEntry} (h : ce ∈ selectChosen wanted files) :
    ce.fi ∈ files ∧ looks_like_attention_fmri ce.fi.name = true ∧
    _normalize_sub_code ce.fi.name = some ce.sub ∧ ce.sub ∈ wanted ∧
    ce.S = lookupD SUB_TO_S ce.sub "Sx" := by
  obtain ⟨fi, hfi, hse⟩ := List.mem_filterMap.mp h
  obtain ⟨h1, h2, h3, h4, h5⟩ := selectEntry_some hse
  subst h1
  exact ⟨hfi, h2, h3, h4, h5⟩

theorem selectEntry_url_char (wanted : List String) (fi : CatalogEntry)
    (hurl : truthyStr (entryUrl fi) = true) :
    Option.map ChosenEntry.fi (selectEntry wanted fi) =
      if specKeeps wanted fi then some fi else none := by
  by_cases hname : fi.name = ""
  · have hlf0 : looks_like_attention_fmri "" = false := by decide
    simp [selectEntry, specKeeps, hname, hlf0]
  · cases hlf : looks_like_attention_fmri fi.name with
    | false => simp [selectEntry, specKeeps, hname, hurl, hlf]
    | true =>
      cases hn : _normalize_sub_code fi.name with
      | none => simp [selectEntry, specKeeps, hname, hurl, hlf, hn]
      | some sub =>
        by_cases hw : sub ∈ wanted
        · simp [selectEntry, specKeeps, hname, hurl, hlf, hn, hw]
        · simp [selectEntry, specKeeps, hname, hurl, hlf, hn, hw]

theorem selectChosen_map_eq_filter {wanted : List String}
    {files : List CatalogEntry}
    (hurl : ∀ fi ∈ files, truthyStr (entryUrl fi) = true) :
    (selectChosen wanted files).map ChosenEntry.fi =
      files.filter (specKeeps wanted) := by
  induction files with
  | nil => rfl
  | cons fi rest ih =>
    have h0 := selectEntry_url_char wanted fi (hurl fi (by simp))
    have ih2 : (List.filterMap (selectEntry wanted) rest).map ChosenEntry.fi =
        rest.filter (specKeeps wanted) := ih (fun g hg => hurl g (by simp [hg]))
    cases hse : selectEntry wanted fi with
    | none =>
      rw [hse] at h0
      have hk : specKeeps wanted fi = false := by
        cases hk2 : specKeeps wanted fi
        · rfl
        · rw [hk2] at h0
          simp at h0
      simp [selectChosen, List.filterMap_cons, hse, List.filter_cons, hk, ih2]
    | some ce =>
      rw [hse] at h0
      have hk : specKeeps wanted fi = true := by
        cases hk2 : specKeeps wanted fi
        · rw [hk2] at h0
          simp at h0
        · rfl
      rw [hk] at h0
      simp at h0
      simp [selectChosen, List.filterMap_cons, hse, List.filter_cons, hk, ih2, h0]

/-! ## Directory lemmas -/

theorem dirLookup_dirWrite (d : Dir) (n : String) (v : FileData) (k : String) :
    dirLookup (dirWrite d n v) k = if n = k then some v else dirLookup d k := by
  induction d with
  | nil => simp [dirWrite, dirLookup]
  | cons p rest ih =>
    obtain ⟨m, e⟩ := p
    by_cases hmn : m = n
    · subst hmn
      by_cases hk : m = k <;> simp [dirWrite, dirLookup, hk]
    · by_cases hk : m = k
      · subst hk
        have hnk : ¬ n = m := fun h => hmn h.symm
        simp [dirWrite, dirLookup, hmn, hnk]
      · simp [dirWrite, dirLookup, hmn, hk, ih]

theorem mem_of_dirLookup {d : Dir} {n : String} {c : FileData}
    (h : dirLookup d n = some c) : (n, c) ∈ d := by
  induction d with
  | nil => cases h
  | cons p rest ih =>
    obtain ⟨m, e⟩ := p
    by_cases hm : m = n
    · subst hm
      simp [dirLookup] at h
      simp [h]
    · simp [dirLookup, hm] at h
      exact List.mem_cons_of_mem _ (ih h)

theorem dirLookup_isSome_of_mem {d : Dir} {p : String × FileData}
    (h : p ∈ d) : (dirLookup d p.1).isSome := by
  induction d with
  | nil => cases h
  | cons q rest ih =>
    obtain ⟨m, e⟩ := q
    rcases List.mem_cons.mp h with h | h
    · subst h
      simp [dirLookup]
    · by_cases hm : m = p.1
      · simp [dirLookup, hm]
      · simp only [dirLookup, hm, if_false]
        exact ih h

theorem mem_dirWrite {d : Dir} {n : String} {v : FileData} {p : String × FileData}
    (h : p ∈ dirWrite d n v) : p = (n, v) ∨ p ∈ d := by
  induction d with
  | nil => simp [dirWrite] at h; simp [h]
  | cons q rest ih =>
    obtain ⟨m, e⟩ := q
    by_cases hm : m = n
    · subst hm
      simp [dirWrite] at h
      rcases h with h | h
      · exact Or.inl (by simp [h])
      · exact Or.inr (List.mem_cons_of_mem _ h)
    · simp only [dirWrite, hm, if_false] at h
      rcases List.mem_cons.mp h with h | h
      · exact Or.inr (by simp [h])
      · rcases ih h with h | h
        · exact Or.inl h
        · exact Or.inr (List.mem_cons_of_mem _ h)

theorem dirLookup_filter_allowed_out {d : Dir} {n : String}
    (hn : n ∉ allowedNames) :
    dirLookup (d.filter (fun p => decide (p.1 ∈ allowedNames))) n = none := by
  induction d with
  | nil => rfl
  | cons q rest ih =>
    obtain ⟨m, e⟩ := q
    by_cases hm : m ∈ allowedNames
    · have hmn : ¬ m = n := fun h => hn (h ▸ hm)
      simp [List.filter_cons, hm, dirLookup, hmn, ih]
    · simp [List.filter_cons, hm, ih]

theorem dirLookup_filter_allowed_in {d : Dir} {n : String}
    (hn : n ∈ allowedNames) :
    dirLookup (d.filter (fun p => decide (p.1 ∈ allowedNames))) n = dirLookup d n := by
  induction d with
  | nil => rfl
  | cons q rest ih =>
    obtain ⟨m, e⟩ := q
    by_cases hm : m ∈ allowedNames
    · simp [List.filter_cons, hm, dirLookup, ih]
    · have hmn : ¬ m = n := fun h => hm (h ▸ hn)
      simp [List.filter_cons, hm, dirLookup, hmn, ih]

/-! ## Per-entry and whole-loop specifications of the download phase -/

theorem processEntry_ok_spec {w : World} {dir dir1 : Dir} {ce : ChosenEntry}
    {r : ManifestRecord} {b : Bool}
    (h : processEntry w dir ce = .ok (dir1, r, b)) :
    r.api_name = ce.fi.name ∧ r.saved_as = savedName ce ∧ r.subject_S = ce.S ∧
    r.md5_remote = ce.fi.md5 ∧ ce.fi.download_url = some r.download_url ∧
    (∃ c, dirLookup dir1 (savedName ce) = some c ∧ r.md5_local = some (w.md5 c)) ∧
    (b = true ↔ dirLookup dir (savedName ce) = none) ∧
    (b = false → dir1 = dir) ∧
    (∀ n c, dirLookup dir n = some c → dirLookup dir1 n = some c) ∧
    (∀ n, dirLookup dir1 n = none ↔ (dirLookup dir n = none ∧ n ≠ savedName ce)) := by
  unfold processEntry at h
  cases hu : ce.fi.download_url with
  | none => rw [hu] at h; cases h
  | some u =>
    rw [hu] at h
    cases hc : dirLookup dir (savedName ce) with
    | some c =>
      rw [hc] at h
      simp only [Except.ok.injEq, Prod.mk.injEq] at h
      obtain ⟨h1, h2, h3⟩ := h
      subst h1; subst h2; subst h3
      refine ⟨rfl, rfl, rfl, rfl, rfl, ⟨c, hc, rfl⟩, by simp [hc], fun _ => rfl,
        fun n c h => h, fun n => ?_⟩
      constructor
      · intro hn
        refine ⟨hn, fun he => ?_⟩
        rw [he, hc] at hn
        cases hn
      · exact fun hp => hp.1
    | none =>
      rw [hc] at h
      simp only [Except.ok.injEq, Prod.mk.injEq] at h
      obtain ⟨h1, h2, h3⟩ := h
      subst h1; subst h2; subst h3
      refine ⟨rfl, rfl, rfl, rfl, rfl,
        ⟨FileData.blob (w.fetch u), by simp [dirLookup_dirWrite], rfl⟩,
        by simp [hc], fun hf => absurd hf (by simp), fun n c hn => ?_, fun n => ?_⟩
      · have hne : ¬ savedName ce = n := fun he => by rw [← he, hc] at hn; cases hn
        simp [dirLookup_dirWrite, hne, hn]
      · rw [dirLookup_dirWrite]
        by_cases hne : savedName ce = n
        · subst hne
          simp [hc]
        · simp only [hne, if_false]
          constructor
          · intro hn
            exact ⟨hn, fun he => hne he.symm⟩
          · intro hp
            exact hp.1

theorem processAll_total (w : World) (ces : List ChosenEntry) :
    ∀ dir : Dir, (∀ ce ∈ ces, (ce.fi.download_url).isSome) →
    ∃ dirF recs flags, processAll w dir ces = .ok (dirF, recs, flags) := by
  induction ces with
  | nil =>
    intro dir _
    exact ⟨dir, [], [], rfl⟩
  | cons ce0 rest ih =>
    intro dir hurl
    obtain ⟨u, hu⟩ := Option.isSome_iff_exists.mp (hurl ce0 (by simp))
    have hpe : ∃ dir1 r0 b0, processEntry w dir ce0 = .ok (dir1, r0, b0) := by
      unfold processEntry
      rw [hu]
      cases hc : dirLookup dir (savedName ce0) with
      | some c => exact ⟨_, _, _, rfl⟩
      | none => exact ⟨_, _, _, rfl⟩
    obtain ⟨dir1, r0, b0, hpe⟩ := hpe
    obtain ⟨dirF, rs, bs, hpa⟩ := ih dir1 (fun ce hce => hurl ce (by simp [hce]))
    exact ⟨dirF, r0 :: rs, b0 :: bs, by simp [processAll, hpe, hpa]⟩

/-- Master specification of the download loop: lengths, stability of
existing files, per-record field correctness (with `md5_local` the hash of
the file found at `saved_as` in the final pre-prune directory), and the
fetched flag characterization (a fetch happens exactly when the destination
neither pre-existed nor was saved by an earlier entry). -/
theorem processAll_ok_spec (w : World) (ces : List ChosenEntry) :
    ∀ (dir dirF : Dir) (recs : List ManifestRecord) (flags : List Bool),
    processAll w dir ces = .ok (dirF, recs, flags) →
    recs.length = ces.length ∧ flags.length = ces.length ∧
    (∀ n c, dirLookup dir n = some c → dirLookup dirF n = some c) ∧
    (∀ (i : Nat) (ce : ChosenEntry) (r : ManifestRecord),
       ces[i]? = some ce → recs[i]? = some r →
       r.api_name = ce.fi.name ∧ r.saved_as = savedName ce ∧ r.subject_S = ce.S ∧
       r.md5_remote = ce.fi.md5 ∧ ce.fi.download_url = some r.download_url ∧
       (∃ c, dirLookup dirF (savedName ce) = some c ∧ r.md5_local = some (w.md5 c))) ∧
    (∀ (i : Nat) (ce : ChosenEntry) (b : Bool),
       ces[i]? = some ce → flags[i]? = some b →
       (b = true ↔ (dirLookup dir (savedName ce) = none ∧
          ∀ (j : Nat) (cj : ChosenEntry), j < i → ces[j]? = some cj →
            savedName cj ≠ savedName ce))) := by
  induction ces with
  | nil =>
    intro dir dirF recs flags h
    simp only [processAll, Except.ok.injEq, Prod.mk.injEq] at h
    obtain ⟨h1, h2, h3⟩ := h
    subst h1; subst h2; subst h3
    refine ⟨rfl, rfl, fun n c hc => hc, ?_, ?_⟩
    · intro i ce r hce _
      simp at hce
    · intro i ce b hce _
      simp at hce
  | cons ce0 rest ih =>
    intro dir dirF recs flags h
    cases hpe : processEntry w dir ce0 with
    | error e => simp [processAll, hpe] at h
    | ok t =>
      obtain ⟨dir1, r0, b0⟩ := t
      cases hpa : processAll w dir1 rest with
      | error p => simp [processAll, hpe, hpa] at h
      | ok t2 =>
        obtain ⟨dirF2, rs, bs⟩ := t2
        simp only [processAll, hpe, hpa, Except.ok.injEq, Prod.mk.injEq] at h
        obtain ⟨h1, h2, h3⟩ := h
        subst h1; subst h2; subst h3
        obtain ⟨e1, e2, e3, e4, e5, e6, e7, e8, e9, e10⟩ := processEntry_ok_spec hpe
        obtain ⟨l1, l2, stab, recspec, flagspec⟩ := ih dir1 dirF2 rs bs hpa
        refine ⟨by simp [l1], by simp [l2], ?_, ?_, ?_⟩
        · intro n c hc
          exact stab n c (e9 n c hc)
        · intro i cei ri hcei hri
          cases i with
          | zero =>
            simp only [List.getElem?_cons_zero, Option.some.injEq] at hcei hri
            subst hcei; subst hri
            obtain ⟨c, hcd, hmd⟩ := e6
            exact ⟨e1, e2, e3, e4, e5, c, stab _ c hcd, hmd⟩
          | succ i =>
            simp only [List.getElem?_cons_succ] at hcei hri
            exact recspec i cei ri hcei hri
        · intro i cei bi hcei hbi
          cases i with
          | zero =>
            simp only [List.getElem?_cons_zero, Option.some.injEq] at hcei hbi
            subst hcei; subst hbi
            constructor
            · intro hb
              exact ⟨e7.mp hb, fun j cj hj _ => absurd hj (Nat.not_lt_zero j)⟩
            · intro hp
              exact e7.mpr hp.1
          | succ i =>
            simp only [List.getElem?_cons_succ] at hcei hbi
            have hiff := flagspec i cei bi hcei hbi
            constructor
            · intro hb
              obtain ⟨hnone1, hall⟩ := hiff.mp hb
              have hpair := (e10 _).mp hnone1
              refine ⟨hpair.1, ?_⟩
              intro j cj hj hcj
              cases j with
              | zero =>
                simp only [List.getElem?_cons_zero, Option.some.injEq] at hcj
                subst hcj
                exact fun he => hpair.2 he.symm
              | succ j =>
                simp only [List.getElem?_cons_succ] at hcj
                exact hall j cj (Nat.lt_of_succ_lt_succ hj) hcj
            · rintro ⟨hnone, hall⟩
              apply hiff.mpr
              have h0 : savedName ce0 ≠ savedName cei :=
                hall 0 ce0 (Nat.succ_pos i) (by simp)
              refine ⟨(e10 _).mpr ⟨hnone, fun he => h0 he.symm⟩, ?_⟩
              intro j cj hj hcj
              exact hall (j + 1) cj (Nat.succ_lt_succ hj) (by simp [hcj])

/-! ## Lemmas about `runMain` -/

theorem savedName_allowed_of_sub {sub : String} (h : sub ∈ fourSubCodes) :
    (lookupD SUB_TO_S sub "Sx" ++ "_attention.h5") ∈ allowedNames ∧
    lookupD SUB_TO_S sub "Sx" ++ "_attention.h5" ≠ "attention_manifest.json" := by
  fin_cases h <;> exact ⟨by decide, by decide⟩

/-- When every chosen entry carries a `download_url`, the run completes,
with the final state as computed by the download loop, pruning, and the
manifest write. -/
theorem runMain_completes (w : World) (articleId : Nat) (subjects : List String)
    (files : List CatalogEntry) (dir0 : Dir) (wanted : List String)
    (hsel : select_subjects subjects = .ok wanted)
    (hne : selectChosen wanted files ≠ [])
    (hurl : ∀ ce ∈ selectChosen wanted files, (ce.fi.download_url).isSome) :
    ∃ dir1 recs flags,
      processAll w dir0 (selectChosen wanted files) = .ok (dir1, recs, flags) ∧
      runMain w articleId subjects files dir0 =
        .completed
          (dirWrite ((prune dir1).1) "attention_manifest.json"
            (FileData.manifestFile ⟨articleId, recs, (prune dir1).2⟩))
          ⟨articleId, recs, (prune dir1).2⟩ flags := by
  obtain ⟨dir1, recs, flags, hpa⟩ :=
    processAll_total w (selectChosen wanted files) dir0 hurl
  refine ⟨dir1, recs, flags, hpa, ?_⟩
  have hne2 : (selectChosen wanted files).isEmpty = false := by
    cases hsc : selectChosen wanted files with
    | nil => exact absurd hsc hne
    | cons a l => rfl
  simp [runMain, hsel, hne2, hpa]

theorem runMain_completed_inv {w : World} {articleId : Nat}
    {subjects : List String} {files : List CatalogEntry} {dir0 dirF : Dir}
    {m : Manifest} {flags : List Bool}
    (h : runMain w articleId subjects files dir0 = .completed dirF m flags) :
    ∃ wanted dir1,
      select_subjects subjects = .ok wanted ∧
      selectChosen wanted files ≠ [] ∧
      processAll w dir0 (selectChosen wanted files) = .ok (dir1, m.downloaded, flags) ∧
      m.figshare_article_id = articleId ∧
      m.pruned = (prune dir1).2 ∧
      dirF = dirWrite ((prune dir1).1) "attention_manifest.json"
        (FileData.manifestFile m) := by
  cases hsel : select_subjects subjects with
  | error e => simp [runMain, hsel] at h
  | ok wanted =>
    by_cases hne : (selectChosen wanted files).isEmpty
    · simp [runMain, hsel, hne] at h
    · cases hpa : processAll w dir0 (selectChosen wanted files) with
      | error p => simp [runMain, hsel, hne, hpa] at h
      | ok t =>
        obtain ⟨dir1, recs, fl⟩ := t
        simp only [runMain, hsel, hne, hpa, Bool.false_eq_true, if_false,
          RunOutcome.completed.injEq] at h
        obtain ⟨h1, h2, h3⟩ := h
        subst h3
        have hm : m = ⟨articleId, recs, (prune dir1).2⟩ := h2.symm
        subst hm
        refine ⟨wanted, dir1, rfl, ?_, hpa, rfl, rfl, h1.symm⟩
        intro hsc
        rw [hsc] at hne
        exact hne rfl

/-! ## Claims -/

/-- C2: the spec's data model lets the remote supply a file's URL in any of
`download_url`, `url` or `supplied_url`, and the downloader is to retrieve
every matched entry.  The selection stage indeed accepts an entry whose URL
is only in `url` (first two conjuncts), but the download loop then reads
`fi["download_url"]` unconditionally, discarding the fallback URL it had
computed, so such a run dies with a KeyError instead of downloading. -/
theorem c2_url_fallback_key_error :
    truthyStr (entryUrl entryUrlOnly) = true ∧
    selectChosen fourSubCodes [entryUrlOnly] ≠ [] ∧
    runMain wS 13474629 [] [entryUrlOnly] [] =
      .fatal "KeyError: download_url" [] :=
  ⟨rfl, by decide, rfl⟩

/-- C3: each of the subject specs "S1", "s1", "sub-06", "SUB_06" resolves
through `select_subjects` to the canonical code `sub-06`; and any spec that
is neither a short code after uppercasing nor normalizable by the regex
raises `ValueError("Unrecognized subject: ...")` naming it. -/
theorem c3_subject_spec_resolution :
    (select_subjects ["S1"] = .ok ["sub-06"] ∧
     select_subjects ["s1"] = .ok ["sub-06"] ∧
     select_subjects ["sub-06"] = .ok ["sub-06"] ∧
     select_subjects ["SUB_06"] = .ok ["sub-06"]) ∧
    (∀ s : String, lookupAssoc S_TO_SUB (pyUpper s) = none →
       _normalize_sub_code s = none →
       select_subjects [s] = .error ("Unrecognized subject: " ++ s)) := by
  refine ⟨⟨rfl, rfl, rfl, rfl⟩, ?_⟩
  intro s h1 h2
  have hr : resolveSpec s = none := by
    unfold resolveSpec
    rw [h1, h2]
  simp [select_subjects, collectSubs, hr, Except.map]

theorem c3_witness :
    select_subjects ["S1"] = .ok ["sub-06"] ∧
    select_subjects ["banana"] = .error ("Unrecognized subject: " ++ "banana") :=
  ⟨c3_subject_spec_resolution.1.1,
   c3_subject_spec_resolution.2 "banana" rfl rfl⟩

/-- C6: the downloader is idempotent by existence check: for a chosen entry
with a `download_url`, processing fetches exactly when the destination file
does not exist, and an existing destination leaves the whole directory
(hence the existing file's contents) unchanged. -/
theorem c6_idempotent_existence_check (w : World) (dir : Dir)
    (ce : ChosenEntry) (u : String) (h : ce.fi.download_url = some u) :
    ∃ dir2 r fetched, processEntry w dir ce = .ok (dir2, r, fetched) ∧
      (fetched = true ↔ dirLookup dir (savedName ce) = none) ∧
      (fetched = false → dir2 = dir) ∧
      (fetched = true →
        dir2 = dirWrite dir (savedName ce) (FileData.blob (w.fetch u))) := by
  unfold processEntry
  rw [h]
  cases hc : dirLookup dir (savedName ce) with
  | some c =>
    exact ⟨dir, _, false, rfl, by simp, fun _ => rfl,
      fun hf => absurd hf (by simp)⟩
  | none =>
    exact ⟨_, _, true, rfl, by simp, fun hf => absurd hf (by simp),
      fun _ => rfl⟩

theorem c6_witness :
    ∃ dir2 r fetched,
      processEntry wS [("S4_attention.h5", FileData.blob "old")] chosenS4 =
        .ok (dir2, r, fetched) ∧
      (fetched = true ↔
        dirLookup [("S4_attention.h5", FileData.blob "old")]
          (savedName chosenS4) = none) ∧
      (fetched = false → dir2 = [("S4_attention.h5", FileData.blob "old")]) ∧
      (fetched = true →
        dir2 = dirWrite [("S4_attention.h5", FileData.blob "old")]
          (savedName chosenS4) (FileData.blob (wS.fetch "u1"))) :=
  c6_idempotent_existence_check wS [("S4_attention.h5", FileData.blob "old")]
    chosenS4 "u1" rfl

/-- C7: a subject spec that resolves to no known code makes the run fail
with a `ValueError` naming the (first) bad input, and the destination
directory is exactly as it was when the error was raised: no download, no
pruning, no manifest happen afterwards. -/
theorem c7_bad_subject_fatal (w : World) (articleId : Nat)
    (subjects : List String) (files : List CatalogEntry) (dir0 : Dir)
    (s : String) (hs : s ∈ subjects) (hbad : resolveSpec s = none) :
    ∃ bad, bad ∈ subjects ∧ resolveSpec bad = none ∧
      runMain w articleId subjects files dir0 =
        .fatal ("Unrecognized subject: " ++ bad) dir0 := by
  obtain ⟨bad, hmem, hres, hcoll⟩ := collectSubs_error_first ⟨s, hs, hbad⟩
  have hnil : subjects.isEmpty = false := by
    cases subjects with
    | nil => cases hs
    | cons a l => rfl
  have hsel : select_subjects subjects =
      .error ("Unrecognized subject: " ++ bad) := by
    unfold select_subjects
    simp [hnil, hcoll, Except.map]
  exact ⟨bad, hmem, hres, by simp [runMain, hsel]⟩

theorem c7_witness :
    ∃ bad, bad ∈ ["oops"] ∧ resolveSpec bad = none ∧
      runMain wS 13474629 ["oops"] [entrySub01] [("a", FileData.blob "x")] =
        .fatal ("Unrecognized subject: " ++ bad) [("a", FileData.blob "x")] :=
  c7_bad_subject_fatal wS 13474629 ["oops"] [entrySub01]
    [("a", FileData.blob "x")] "oops" (by simp) rfl

/-- C8: when the selector keeps nothing, the run returns early and cleanly:
the outcome is `noMatch` with the directory exactly as given — nothing
downloaded, nothing pruned, no manifest written. -/
theorem c8_no_match_clean (w : World) (articleId : Nat)
    (subjects wanted : List String) (files : List CatalogEntry) (dir0 : Dir)
    (hsel : select_subjects subjects = .ok wanted)
    (hnone : selectChosen wanted files = []) :
    runMain w articleId subjects files dir0 = .noMatch dir0 := by
  simp [runMain, hsel, hnone]

theorem c8_witness :
    runMain wS 13474629 [] [] [("stray.txt", FileData.blob "x")] =
      .noMatch [("stray.txt", FileData.blob "x")] :=
  c8_no_match_clean wS 13474629 [] ["sub-06", "sub-07", "sub-04", "sub-01"]
    [] [("stray.txt", FileData.blob "x")] rfl rfl

/-- C9 counterexample: with an empty spec list `select_subjects` returns
`list(SUB_TO_S.keys())` in dict insertion order — `sub-06, sub-07, sub-04,
sub-01` — which is not sorted, refuting the claim that the result is always
sorted. -/
theorem c9_counterexample :
    select_subjects [] = .ok ["sub-06", "sub-07", "sub-04", "sub-01"] ∧
    ¬ strSorted ["sub-06", "sub-07", "sub-04", "sub-01"] :=
  ⟨rfl, by decide⟩

/-- C9 (amended): whenever `select_subjects` succeeds the result is
duplicate-free with every element among the four canonical codes; for a
non-empty spec list it is additionally sorted; for the empty spec list it
is exactly the four canonical codes in the fixed (unsorted) order
`sub-06, sub-07, sub-04, sub-01`. -/
theorem c9_amended_shape :
    ∀ (specs l : List String), select_subjects specs = .ok l →
      l.Nodup ∧ (∀ x ∈ l, x ∈ fourSubCodes) ∧
      (specs ≠ [] → strSorted l) ∧
      (specs = [] → l = ["sub-06", "sub-07", "sub-04", "sub-01"]) := by
  intro specs l h
  refine ⟨select_subjects_nodup h, select_subjects_mem_four h,
    fun hne => select_subjects_sorted hne h, fun he => ?_⟩
  subst he
  simp only [select_subjects, List.isEmpty_nil, if_true, Except.ok.injEq] at h
  exact h.symm

theorem c9_witness :
    (["sub-01", "sub-06"] : List String).Nodup ∧
    (∀ x ∈ (["sub-01", "sub-06"] : List String), x ∈ fourSubCodes) ∧
    ((["S1", "sub-01"] : List String) ≠ [] → strSorted ["sub-01", "sub-06"]) ∧
    ((["S1", "sub-01"] : List String) = [] →
      (["sub-01", "sub-06"] : List String) =
        ["sub-06", "sub-07", "sub-04", "sub-01"]) :=
  c9_amended_shape ["S1", "sub-01"] ["sub-01", "sub-06"] rfl

/-- C4: under the catalog data model (every entry carries a truthy URL in
one of its three URL fields), the selector keeps exactly the entries whose
lower-cased name ends in `.h5` and contains `attention` and `vc` and whose
derived subject code is wanted, each annotated with its subject code and
short code; on the concrete catalog `[sub-01_attention_vc.h5,
sub-99_other.h5]` it returns only the first, annotated `sub-01`/`S4`. -/
theorem c4_selector_keeps_exactly :
    (∀ (wanted : List String) (files : List CatalogEntry),
       (∀ fi ∈ files, truthyStr (entryUrl fi) = true) →
       (selectChosen wanted files).map ChosenEntry.fi =
         files.filter (specKeeps wanted) ∧
       ∀ ce ∈ selectChosen wanted files,
         looks_like_attention_fmri ce.fi.name = true ∧
         _normalize_sub_code ce.fi.name = some ce.sub ∧ ce.sub ∈ wanted ∧
         ce.S = lookupD SUB_TO_S ce.sub "Sx") ∧
    selectChosen fourSubCodes [entrySub01, entrySub99] =
      [⟨entrySub01, "sub-01", "S4"⟩] := by
  constructor
  · intro wanted files hurl
    refine ⟨selectChosen_map_eq_filter hurl, ?_⟩
    intro ce hce
    obtain ⟨_, h2, h3, h4, h5⟩ := selectChosen_mem hce
    exact ⟨h2, h3, h4, h5⟩
  · rfl

theorem c4_witness :
    (selectChosen fourSubCodes [entrySub01, entrySub99]).map ChosenEntry.fi =
      List.filter (specKeeps fourSubCodes) [entrySub01, entrySub99] :=
  ((c4_selector_keeps_exactly.1 fourSubCodes [entrySub01, entrySub99]
    (by decide)).1)

/-- C5: a checksum mismatch is non-fatal: whenever every chosen entry has a
`download_url`, the run completes and writes the manifest regardless of any
`md5` values, and each manifest record carries the entry's remote md5
verbatim together with the locally computed hash of the file found at its
destination — so a mismatching pair is recorded, not raised. -/
theorem c5_md5_mismatch_nonfatal (w : World) (articleId : Nat)
    (subjects wanted : List String) (files : List CatalogEntry) (dir0 : Dir)
    (hsel : select_subjects subjects = .ok wanted)
    (hne : selectChosen wanted files ≠ [])
    (hurl : ∀ ce ∈ selectChosen wanted files, (ce.fi.download_url).isSome) :
    ∃ dirF m flags,
      runMain w articleId subjects files dir0 = .completed dirF m flags ∧
      dirLookup dirF "attention_manifest.json" =
        some (FileData.manifestFile m) ∧
      m.downloaded.length = (selectChosen wanted files).length ∧
      (∀ (i : Nat) (ce : ChosenEntry) (r : ManifestRecord),
         (selectChosen wanted files)[i]? = some ce →
         m.downloaded[i]? = some r →
         r.md5_remote = ce.fi.md5 ∧
         ∃ c, dirLookup dirF (savedName ce) = some c ∧
           r.md5_local = some (w.md5 c)) := by
  obtain ⟨dir1, recs, flags, hpa, hrun⟩ :=
    runMain_completes w articleId subjects files dir0 wanted hsel hne hurl
  obtain ⟨l1, l2, stab, recspec, flagspec⟩ :=
    processAll_ok_spec w _ dir0 dir1 recs flags hpa
  refine ⟨_, _, flags, hrun, ?_, l1, ?_⟩
  · rw [dirLookup_dirWrite]
    simp
  · intro i ce r hce hr
    obtain ⟨p1, p2, p3, p4, p5, c, hcd, hmd⟩ := recspec i ce r hce hr
    have hcmem : ce ∈ selectChosen wanted files := List.getElem?_mem hce
    obtain ⟨_, _, _, hsub, hS⟩ := selectChosen_mem hcmem
    have hsub4 : ce.sub ∈ fourSubCodes := select_subjects_mem_four hsel ce.sub hsub
    obtain ⟨hall, hneq⟩ := savedName_allowed_of_sub hsub4
    have hsv : savedName ce = lookupD SUB_TO_S ce.sub "Sx" ++ "_attention.h5" := by
      rw [savedName, hS]
    rw [← hsv] at hall hneq
    refine ⟨p4, c, ?_, hmd⟩
    rw [dirLookup_dirWrite, if_neg (fun he => hneq he.symm)]
    show dirLookup ((prune dir1).1) (savedName ce) = some c
    unfold prune
    rw [dirLookup_filter_allowed_in hall]
    exact hcd

theorem c5_witness :
    ∃ dirF m flags,
      runMain wS 13474629 [] [entrySub01] [] = .completed dirF m flags ∧
      dirLookup dirF "attention_manifest.json" =
        some (FileData.manifestFile m) ∧
      m.downloaded.length = (selectChosen defaultWanted [entrySub01]).length ∧
      (∀ (i : Nat) (ce : ChosenEntry) (r : ManifestRecord),
         (selectChosen defaultWanted [entrySub01])[i]? = some ce →
         m.downloaded[i]? = some r →
         r.md5_remote = ce.fi.md5 ∧
         ∃ c, dirLookup dirF (savedName ce) = some c ∧
           r.md5_local = some (wS.md5 c)) :=
  c5_md5_mismatch_nonfatal wS 13474629 [] defaultWanted [entrySub01] []
    rfl (by decide) (by decide)

/-- C10: entries deriving the same subject share one destination: each gets
its own manifest record with the same `saved_as`, only the first such entry
(with no pre-existing file) is fetched, every later one is skipped by the
existence check, and its `md5_local` equals the first record's (the hash of
the file the first entry saved). -/
theorem c10_duplicate_subject_records (w : World) (articleId : Nat)
    (subjects wanted : List String) (files : List CatalogEntry) (dir0 : Dir)
    (hsel : select_subjects subjects = .ok wanted)
    (hne : selectChosen wanted files ≠ [])
    (hurl : ∀ ce ∈ selectChosen wanted files, (ce.fi.download_url).isSome) :
    ∃ dirF m flags,
      runMain w articleId subjects files dir0 = .completed dirF m flags ∧
      m.downloaded.length = (selectChosen wanted files).length ∧
      flags.length = (selectChosen wanted files).length ∧
      (∀ (i : Nat) (ce : ChosenEntry) (r : ManifestRecord),
         (selectChosen wanted files)[i]? = some ce →
         m.downloaded[i]? = some r → r.saved_as = savedName ce) ∧
      (∀ (i j : Nat) (ci cj : ChosenEntry) (ri rj : ManifestRecord),
         i < j →
         (selectChosen wanted files)[i]? = some ci →
         (selectChosen wanted files)[j]? = some cj →
         savedName ci = savedName cj →
         m.downloaded[i]? = some ri → m.downloaded[j]? = some rj →
         flags[j]? = some false ∧ rj.saved_as = ri.saved_as ∧
         rj.md5_local = ri.md5_local) ∧
      (∀ (j : Nat) (cj : ChosenEntry),
         (selectChosen wanted files)[j]? = some cj →
         dirLookup dir0 (savedName cj) = none →
         (∀ (i : Nat) (ci : ChosenEntry), i < j →
            (selectChosen wanted files)[i]? = some ci →
            savedName ci ≠ savedName cj) →
         flags[j]? = some true) := by
  obtain ⟨dir1, recs, flags, hpa, hrun⟩ :=
    runMain_completes w articleId subjects files dir0 wanted hsel hne hurl
  obtain ⟨l1, l2, stab, recspec, flagspec⟩ :=
    processAll_ok_spec w _ dir0 dir1 recs flags hpa
  refine ⟨_, _, flags, hrun, l1, l2, ?_, ?_, ?_⟩
  · intro i ce r hce hr
    exact (recspec i ce r hce hr).2.1
  · intro i j ci cj ri rj hij hci hcj hsame hri hrj
    have hjlt : j < (selectChosen wanted files).length := by
      have := List.getElem?_eq_some.mp hcj
      exact this.1
    have hbj : flags[j]? = some (flags[j]) := by
      rw [List.getElem?_eq_getElem (by rw [l2]; exact hjlt)]
    obtain ⟨q1, q2, q3, q4, q5, c, hcd, hmd⟩ := recspec j cj rj hcj hrj
    obtain ⟨s1, s2, s3, s4, s5, ci2c, hcdi, hmdi⟩ := recspec i ci ri hci hri
    have hflag := flagspec j cj (flags[j]) hcj hbj
    have hfalse : flags[j] = false := by
      cases hval : flags[j] with
      | false => rfl
      | true =>
        have := (hflag.mp hval).2 i ci hij hci
        exact absurd hsame this
    refine ⟨by rw [hbj, hfalse], by rw [q2, s2, hsame], ?_⟩
    rw [hmd, hmdi]
    rw [hsame] at hcdi
    rw [hcd] at hcdi
    cases hcdi
    rfl
  · intro j cj hcj hpre hfst
    have hjlt : j < (selectChosen wanted files).length := by
      have := List.getElem?_eq_some.mp hcj
      exact this.1
    have hbj : flags[j]? = some (flags[j]) := by
      rw [List.getElem?_eq_getElem (by rw [l2]; exact hjlt)]
    have hflag := flagspec j cj (flags[j]) hcj hbj
    have : flags[j] = true := hflag.mpr ⟨hpre, fun i ci hi hic => hfst i ci hi hic⟩
    rw [hbj, this]

theorem c10_witness :
    ∃ dirF m flags,
      runMain wS 13474629 [] [entrySub01, entrySub01b] [] =
        .completed dirF m flags ∧
      m.downloaded.length =
        (selectChosen defaultWanted [entrySub01, entrySub01b]).length ∧
      flags.length =
        (selectChosen defaultWanted [entrySub01, entrySub01b]).length ∧
      (∀ (i : Nat) (ce : ChosenEntry) (r : ManifestRecord),
         (selectChosen defaultWanted [entrySub01, entrySub01b])[i]? = some ce →
         m.downloaded[i]? = some r → r.saved_as = savedName ce) ∧
      (∀ (i j : Nat) (ci cj : ChosenEntry) (ri rj : ManifestRecord),
         i < j →
         (selectChosen defaultWanted [entrySub01, entrySub01b])[i]? = some ci →
         (selectChosen defaultWanted [entrySub01, entrySub01b])[j]? = some cj →
         savedName ci = savedName cj →
         m.downloaded[i]? = some ri → m.downloaded[j]? = some rj →
         flags[j]? = some false ∧ rj.saved_as = ri.saved_as ∧
         rj.md5_local = ri.md5_local) ∧
      (∀ (j : Nat) (cj : ChosenEntry),
         (selectChosen defaultWanted [entrySub01, entrySub01b])[j]? = some cj →
         dirLookup [] (savedName cj) = none →
         (∀ (i : Nat) (ci : ChosenEntry), i < j →
            (selectChosen defaultWanted [entrySub01, entrySub01b])[i]? = some ci →
            savedName ci ≠ savedName cj) →
         flags[j]? = some true) :=
  c10_duplicate_subject_records wS 13474629 [] defaultWanted
    [entrySub01, entrySub01b] [] rfl (by decide) (by decide)

/-- C1: after a completed run (at least one matching file, no crash):
every remaining child of the destination is in the allowed set
`\x7bS1..S4\x7d_attention.h5 ∪ \x7battention_manifest.json\x7d`; every pre-run child
outside the allowed set is gone and its name is in the manifest's `pruned`
list; every downloaded record's file is still present; and the manifest —
written after pruning — is present as `attention_manifest.json`. -/
theorem c1_destination_normalized (w : World) (articleId : Nat)
    (subjects : List String) (files : List CatalogEntry) (dir0 : Dir)
    (dirF : Dir) (m : Manifest) (flags : List Bool)
    (hrun : runMain w articleId subjects files dir0 = .completed dirF m flags) :
    (∀ p ∈ dirF, p.1 ∈ allowedNames) ∧
    (∀ p ∈ dir0, p.1 ∉ allowedNames →
       dirLookup dirF p.1 = none ∧ p.1 ∈ m.pruned) ∧
    (∀ r ∈ m.downloaded, (dirLookup dirF r.saved_as).isSome) ∧
    dirLookup dirF "attention_manifest.json" =
      some (FileData.manifestFile m) := by
  obtain ⟨wanted, dir1, hsel, hcne, hpa, hid, hpr, hdirF⟩ :=
    runMain_completed_inv hrun
  obtain ⟨l1, l2, stab, recspec, flagspec⟩ :=
    processAll_ok_spec w _ dir0 dir1 _ flags hpa
  subst hdirF
  have hmallow : ("attention_manifest.json" : String) ∈ allowedNames := by decide
  refine ⟨?_, ?_, ?_, ?_⟩
  · intro p hp
    rcases mem_dirWrite hp with h | h
    · rw [h]
      exact hmallow
    · have h2 := List.mem_filter.mp h
      exact of_decide_eq_true h2.2
  · intro p hp hout
    obtain ⟨c0, hc0⟩ := Option.isSome_iff_exists.mp (dirLookup_isSome_of_mem hp)
    have hc1 : dirLookup dir1 p.1 = some c0 := stab _ _ hc0
    have hmem1 : (p.1, c0) ∈ dir1 := mem_of_dirLookup hc1
    have hpne : ¬ ("attention_manifest.json" : String) = p.1 := by
      intro he
      exact hout (he ▸ hmallow)
    constructor
    · rw [dirLookup_dirWrite, if_neg hpne]
      exact dirLookup_filter_allowed_out hout
    · rw [hpr]
      show p.1 ∈ (dir1.filter (fun q => decide (q.1 ∉ allowedNames))).map Prod.fst
      exact List.mem_map.mpr
        ⟨(p.1, c0), List.mem_filter.mpr ⟨hmem1, by simp [hout]⟩, rfl⟩
  · intro r hr
    obtain ⟨i, hi⟩ := List.mem_iff_getElem?.mp hr
    have hilt : i < (selectChosen wanted files).length := by
      have := List.getElem?_eq_some.mp hi
      rw [← l1]
      exact this.1
    have hce : (selectChosen wanted files)[i]? = some ((selectChosen wanted files)[i]) :=
      List.getElem?_eq_getElem hilt
    obtain ⟨p1, p2, p3, p4, p5, c, hcd, hmd⟩ :=
      recspec i ((selectChosen wanted files)[i]) r hce hi
    have hcmem : (selectChosen wanted files)[i] ∈ selectChosen wanted files :=
      List.getElem_mem hilt
    obtain ⟨_, _, _, hsub, hS⟩ := selectChosen_mem hcmem
    have hsub4 := select_subjects_mem_four hsel _ hsub
    obtain ⟨hall, hneq⟩ := savedName_allowed_of_sub hsub4
    have hsv : savedName ((selectChosen wanted files)[i]) =
        lookupD SUB_TO_S ((selectChosen wanted files)[i]).sub "Sx" ++
          "_attention.h5" := by
      rw [savedName, hS]
    rw [← hsv] at hall hneq
    rw [p2, dirLookup_dirWrite, if_neg (fun he => hneq he.symm)]
    show (dirLookup ((prune dir1).1) (savedName ((selectChosen wanted files)[i]))).isSome
    unfold prune
    rw [dirLookup_filter_allowed_in hall, hcd]
    rfl
  · rw [dirLookup_dirWrite]
    simp

theorem c1_witness :
    (∀ p ∈ dirFC1, p.1 ∈ allowedNames) ∧
    (∀ p ∈ [("junk.txt", FileData.blob "x")], p.1 ∉ allowedNames →
       dirLookup dirFC1 p.1 = none ∧ p.1 ∈ manifestC1.pruned) ∧
    (∀ r ∈ manifestC1.downloaded, (dirLookup dirFC1 r.saved_as).isSome) ∧
    dirLookup dirFC1 "attention_manifest.json" =
      some (FileData.manifestFile manifestC1) :=
  c1_destination_normalized wS 13474629 [] [entrySub01]
    [("junk.txt", FileData.blob "x")] dirFC1 manifestC1 [true] rfl

end DownloadAttention
